import Mathlib

/-!
Shallow embedding of `src/html_parser.c`: a two-stage HTML-like parser
(tokenizer and DOM tree builder).  Strings are modelled as `List Char`,
the token array as `List Token`, the heap of `Node` records as an arena
(`List NodeRec`) addressed by `Nat` indices standing for the C pointers,
and the open-element stack as a `List Nat` of arena indices with the top
of the C array (`stack[stack_size - 1]`) at the head.  An out-of-bounds
stack access (`stack[-1]`, undefined behavior in the C program) is
modelled by returning `none`.  The fixed buffer capacities of the C
source (1024-char text buffer, 256-char tag name, 128-deep stack) are
modelled as unbounded, following the spec, which states these limits are
implementation accidents rather than contracts.
-/

namespace HtmlParser

/-- Token type and payload, from `TokenType` and `Token` in the source:
`StartTag`, `EndTag`, `Text`, each carrying `data` (tag name or text). -/
inductive Token where
  | startTag (data : List Char)
  | endTag (data : List Char)
  | text (data : List Char)
  deriving DecidableEq, Repr

/-- One `Node` record of the C heap: `name`, `is_text` flag, and the
`children` pointer array, modelled as a list of arena indices. -/
structure NodeRec where
  name : List Char
  is_text : Bool
  children : List Nat
  deriving DecidableEq, Repr

/-- The extracted DOM tree handed to the consumer: name-or-text payload,
text flag, ordered children. -/
inductive Node where
  | mk (name : List Char) ( is_text : Bool) (children : List Node)

/-- Name of the synthetic root element created at line 142. -/
def documentName : List Char := "document".toList

/-- Flushing the pending text buffer (lines 87–98 and 128–137 of the
source): emits a `Text` token exactly when the buffer is non-empty. -/
def flushBuf (buf : List Char) : List Token :=
  if buf = [] then [] else [Token.text buf]

/-- Flag `is_end_tag` from line 101: the character after `<` exists and is `/`. -/
def tagIsEnd (rest : List Char) : Bool :=
  rest.head? = some '/'

/-- The characters the tag-name loop (lines 105–110) scans: the input
after `<` (and after `/` for an end tag). -/
def tagBody (rest : List Char) : List Char :=
  if tagIsEnd rest then rest.tail else rest

/-- The tag name accumulated by lines 107–109: characters up to the
first `>`, exclusive (all remaining characters if no `>` occurs). -/
def tagName (rest : List Char) : List Char :=
  (tagBody rest).takeWhile (fun c => c ≠ '>')

/-- The token emitted for a tag (lines 117–118). -/
def mkTag (rest : List Char) : Token :=
  if tagIsEnd rest then Token.endTag (tagName rest) else Token.startTag (tagName rest)

/-- The input remaining after a tag is processed: everything past the
first `>` (line 111 skips the `>`); empty if no `>` occurs, matching the
scan position moving past end of input. -/
def tagRemainder (rest : List Char) : List Char :=
  ((tagBody rest).dropWhile (fun c => c ≠ '>')).tail

/-- The tokenizer loop (lines 82–125 of the source) with the pending
text buffer `buf` as explicit state: a text character is appended to the
buffer; on `<` the buffer is flushed, the tag token is emitted, and the
scan resumes after the `>`.  The trailing flush of lines 128–137 is the
`[]` case. -/
def tokenizeAux (buf : List Char) (l : List Char) : List Token :=
  match l with
  | [] => flushBuf buf
  | c :: rest =>
    if c = '<' then
      flushBuf buf ++ (mkTag rest :: tokenizeAux [] (tagRemainder rest))
    else
      tokenizeAux (buf ++ [c]) rest
termination_by l.length
decreasing_by
  · have hd : ∀ (p : Char → Bool) (m : List Char), (m.dropWhile p).length ≤ m.length := by
      intro p m
      induction m with
      | nil => simp [List.dropWhile]
      | cons c r ih =>
        by_cases h : p c <;> simp [List.dropWhile, h] <;> omega
    have ht : ∀ (m : List Char), m.tail.length ≤ m.length := by
      intro m; cases m <;> simp
    have h1 : (tagRemainder rest).length ≤ rest.length := by
      unfold tagRemainder tagBody
      by_cases h : tagIsEnd rest
      · simp only [h, if_pos]
        calc ((rest.tail.dropWhile (fun c => c ≠ '>')).tail).length
            ≤ (rest.tail.dropWhile (fun c => c ≠ '>')).length := ht _
          _ ≤ rest.tail.length := hd _ _
          _ ≤ rest.length := ht _
      · simp only [h, if_neg, Bool.false_eq_true, not_false_iff]
        calc ((rest.dropWhile (fun c => c ≠ '>')).tail).length
            ≤ (rest.dropWhile (fun c => c ≠ '>')).length := ht _
          _ ≤ rest.length := hd _ _
    simp only [List.length_cons]
    exact Nat.lt_succ_of_le h1
  · simp

/-- Function `tokenize` (lines 76–138): scan the whole input with an initially
empty text buffer. -/
def tokenize (html : List Char) : List Token :=
  tokenizeAux [] html

/-- Function `create_node` (lines 28–36) as arena allocation: append a fresh
record with no children; the returned index is the old arena length. -/
def create_node (arena : List NodeRec) (name : List Char) (t : Bool) :
    List NodeRec × Nat :=
  (arena ++ [⟨name, t, []⟩], arena.length)

/-- Function `add_child` (lines 39–45): append `child` to the `children` array of
the record at index `i`. -/
def add_child : List NodeRec → Nat → Nat → List NodeRec
  | [], _, _ => []
  | r :: rest, 0, child => { r with children := r.children ++ [child] } :: rest
  | r :: rest, i + 1, child => r :: add_child rest i child

/-- The state of `build_dom`'s loop: the heap of allocated nodes and the
open-element stack (head = `stack[stack_size - 1]`). -/
abbrev BuildState := List NodeRec × List Nat

/-- One iteration of the loop at lines 147–158.  `StartTag`: allocate,
append to the stack top's children, push.  `EndTag`: `if (stack_size >
0) stack_size--`, i.e. drop the head if any — the payload is never read.
`Text`: allocate a text node and append it to the stack top's children;
no push.  Reading `stack[stack_size - 1]` with `stack_size = 0` is the
out-of-bounds access `stack[-1]`, modelled as `none`. -/
def buildStep (st : BuildState) (t : Token) : Option BuildState :=
  match t with
  | Token.startTag name =>
    match st.2 with
    | [] => none
    | top :: rest =>
      let (arena, idx) := create_node st.1 name false
      some (add_child arena top idx, idx :: top :: rest)
  | Token.endTag _ => some (st.1, st.2.tail)
  | Token.text s =>
    match st.2 with
    | [] => none
    | top :: rest =>
      let (arena, idx) := create_node st.1 s true
      some (add_child arena top idx, top :: rest)

/-- The initial state of `build_dom` (lines 142–145): the arena holds
only the root element named `"document"` and the stack holds its index. -/
def initState : BuildState :=
  ([⟨documentName, false, []⟩], [0])

/-- The state after `build_dom`'s loop has consumed all tokens, starting
from an arbitrary state. -/
def buildFrom (st : BuildState) (ts : List Token) : Option BuildState :=
  ts.foldlM (fun s t => buildStep s t) st

/-- The state after `build_dom`'s loop has consumed all tokens. -/
def buildState (ts : List Token) : Option BuildState :=
  buildFrom initState ts

/-- Read the tree rooted at arena index `i` back out of the arena.
`fuel` bounds the recursion depth; since a child's index always exceeds
its parent's, `arena.length` is always enough fuel. -/
def extract (arena : List NodeRec) : Nat → Nat → Node
  | 0, _ => Node.mk [] false []
  | fuel + 1, i =>
    match arena.get? i with
    | none => Node.mk [] false []
    | some r => Node.mk r.name r.is_text (r.children.map (extract arena fuel))

/-- Function `build_dom` (lines 141–162): run the loop over the tokens and return
the tree rooted at index 0 (the root node); `none` if the loop performed
an out-of-bounds stack access. -/
def build_dom (ts : List Token) : Option Node :=
  (buildState ts).map (fun st => extract st.1 st.1.length 0)

/-- The whole pipeline: `tokenize` then `build_dom`, as in `main`. -/
def parseHtml (html : List Char) : Option Node :=
  build_dom (tokenize html)

/-- Whether the list contains the character `>`. -/
def hasGt : List Char → Bool
  | [] => false
  | c :: r => c = '>' || hasGt r

/-- Whether every `<` occurring in the list is followed, later in the
list, by some `>` (so every tag the tokenizer opens inside this prefix
of the input is terminated within it). -/
def allTagsClosed : List Char → Bool
  | [] => true
  | c :: r => (if c = '<' then hasGt r else true) && allTagsClosed r

/-- Two token sequences that are identical except possibly for the
payloads carried by `EndTag` tokens at the same positions. -/
inductive SameModEnd : List Token → List Token → Prop where
  | nil : SameModEnd [] []
  | cons (t : Token) {l1 l2 : List Token} (h : SameModEnd l1 l2) :
      SameModEnd (t :: l1) (t :: l2)
  | endTag (a b : List Char) {l1 l2 : List Token} (h : SameModEnd l1 l2) :
      SameModEnd (Token.endTag a :: l1) (Token.endTag b :: l2)

mutual

/-- Every text node in the tree has an empty children sequence. -/
def allTextChildless : Node → Bool
  | Node.mk _ t cs => (!t || cs.isEmpty) && allTextChildlessList cs

/-- Conjunction of `allTextChildless` over a list of trees. -/
def allTextChildlessList : List Node → Bool
  | [] => true
  | n :: ns => allTextChildless n && allTextChildlessList ns

end

/-- The invariant of `build_dom`'s loop state: every text record in the
arena has no children, and every stack entry is the index of an element
(non-text) record of the arena. -/
def ArenaInv (st : BuildState) : Prop :=
  (∀ j r, st.1.get? j = some r → r.is_text = true → r.children = []) ∧
  (∀ i ∈ st.2, ∃ r, st.1.get? i = some r ∧ r.is_text = false)

theorem length_dropWhile_le (p : Char → Bool) (l : List Char) :
    (l.dropWhile p).length ≤ l.length := by
  induction l with
  | nil => simp [List.dropWhile]
  | cons c r ih =>
    by_cases h : p c
    · simp only [List.dropWhile, h]
      exact Nat.le_succ_of_le ih
    · simp only [List.dropWhile, h]
      simp

theorem length_tail_le (l : List Char) : l.tail.length ≤ l.length := by
  cases l <;> simp

theorem length_tagRemainder_le (rest : List Char) :
    (tagRemainder rest).length ≤ rest.length := by
  unfold tagRemainder tagBody
  by_cases h : tagIsEnd rest
  · simp only [h, if_pos]
    calc ((rest.tail.dropWhile (fun c => c ≠ '>')).tail).length
        ≤ (rest.tail.dropWhile (fun c => c ≠ '>')).length := length_tail_le _
      _ ≤ rest.tail.length := length_dropWhile_le _ _
      _ ≤ rest.length := length_tail_le _
  · simp only [h, if_neg, Bool.false_eq_true, not_false_iff]
    calc ((rest.dropWhile (fun c => c ≠ '>')).tail).length
        ≤ (rest.dropWhile (fun c => c ≠ '>')).length := length_tail_le _
      _ ≤ rest.length := length_dropWhile_le _ _

theorem buildFrom_nil (st : BuildState) : buildFrom st [] = some st := rfl

theorem buildFrom_cons (st : BuildState) (t : Token) (ts : List Token) :
    buildFrom st (t :: ts) = (buildStep st t).bind (fun s => buildFrom s ts) := rfl

theorem buildFrom_append (st : BuildState) (ts1 ts2 : List Token) :
    buildFrom st (ts1 ++ ts2) = (buildFrom st ts1).bind (fun s => buildFrom s ts2) := by
  induction ts1 generalizing st with
  | nil => simp [buildFrom_nil]
  | cons t ts ih =>
    rw [List.cons_append, buildFrom_cons, buildFrom_cons]
    cases buildStep st t with
    | none => simp
    | some s => simp [ih s]

theorem buildFrom_sameModEnd {t1 t2 : List Token} (h : SameModEnd t1 t2) :
    ∀ st, buildFrom st t1 = buildFrom st t2 := by
  induction h with
  | nil => intro st; rfl
  | cons t h ih =>
    intro st
    rw [buildFrom_cons, buildFrom_cons]
    cases buildStep st t with
    | none => rfl
    | some s => simp [ih s]
  | endTag a b h ih =>
    intro st
    rw [buildFrom_cons, buildFrom_cons]
    have hstep : buildStep st (Token.endTag a) = buildStep st (Token.endTag b) := rfl
    rw [hstep]
    cases buildStep st (Token.endTag b) with
    | none => rfl
    | some s => simp [ih s]

/-- Claim C1 (code bug evidence): with only the synthetic root open, an
`EndTag` is not a no-op — the guard `if (stack_size > 0) stack_size--`
at line 153 pops the root as well, so after `</a>` the open-element
stack is empty, and the next `StartTag` then reads `stack[-1]`
(`stack[stack_size - 1]` with `stack_size = 0`), an out-of-bounds
access, modelled as `none`. -/
theorem claim_C1 :
    buildState [Token.endTag ['a']] = some ([⟨documentName, false, []⟩], []) ∧
    build_dom [Token.endTag ['a'], Token.startTag ['b']] = none := by
  constructor
  · decide
  · have h : buildState [Token.endTag ['a'], Token.startTag ['b']] = none := by decide
    simp [build_dom, h]

/-- Claim C2: the tree produced by the tree builder does not depend on
the payloads of `EndTag` tokens — for any two token sequences identical
except for the tag names carried by their `EndTag` tokens, `build_dom`
returns identical trees (line 153 never reads `tokens[i].data`). -/
theorem claim_C2 {t1 t2 : List Token} (h : SameModEnd t1 t2) :
    build_dom t1 = build_dom t2 := by
  unfold build_dom buildState
  rw [buildFrom_sameModEnd h initState]

theorem claim_C2_witness :
    SameModEnd [Token.startTag ['a'], Token.endTag ['a']]
      [Token.startTag ['a'], Token.endTag ['x']] ∧
    build_dom [Token.startTag ['a'], Token.endTag ['a']] =
      build_dom [Token.startTag ['a'], Token.endTag ['x']] := by
  have hrel : SameModEnd [Token.startTag ['a'], Token.endTag ['a']]
      [Token.startTag ['a'], Token.endTag ['x']] :=
    SameModEnd.cons _ (SameModEnd.endTag _ _ SameModEnd.nil)
  exact ⟨hrel, claim_C2 hrel⟩

/-- Claim C3: for the input `"hello<b>world</b>"` the tokenizer yields
exactly `[Text "hello", StartTag "b", Text "world", EndTag "b"]` — the
pending text is flushed as a `Text` token when the `<` is seen, before
the tag is processed, and text runs are not merged across a tag. -/
theorem claim_C3 :
    tokenize ['h','e','l','l','o','<','b','>','w','o','r','l','d','<','/','b','>'] =
    [Token.text ['h','e','l','l','o'], Token.startTag ['b'],
     Token.text ['w','o','r','l','d'], Token.endTag ['b']] := by
  simp +decide [tokenize, tokenizeAux, tagRemainder, tagBody, tagIsEnd, tagName, mkTag,
    flushBuf, List.dropWhile, List.takeWhile]

/-- Claim C5: for the input `"</a>"` alone, the whole pipeline performs
no out-of-bounds stack access (the result is `some`, and the final state
is reached without reading `stack[-1]`), and the resulting tree is
exactly the synthetic root element named `"document"` with no children. -/
theorem claim_C5 :
    tokenize ['<','/','a','>'] = [Token.endTag ['a']] ∧
    parseHtml ['<','/','a','>'] = some (Node.mk documentName false []) := by
  have h : tokenize ['<','/','a','>'] = [Token.endTag ['a']] := by
    simp +decide [tokenize, tokenizeAux, tagRemainder, tagBody, tagIsEnd, tagName, mkTag,
      flushBuf, List.dropWhile, List.takeWhile]
  refine ⟨h, ?_⟩
  unfold parseHtml
  rw [h]
  rfl

theorem text_mem_flushBuf {buf s : List Char} (h : Token.text s ∈ flushBuf buf) :
    s = buf ∧ buf ≠ [] := by
  unfold flushBuf at h
  by_cases hb : buf = []
  · simp [hb] at h
  · simp [hb] at h
    exact ⟨h, hb⟩

theorem mkTag_ne_text (rest s : List Char) : mkTag rest ≠ Token.text s := by
  unfold mkTag
  split <;> simp

theorem text_mem_tokenizeAux {s : List Char} :
    ∀ buf l, Token.text s ∈ tokenizeAux buf l → s ≠ [] := by
  intro buf l
  induction buf, l using tokenizeAux.induct with
  | case1 buf =>
    intro h
    rw [tokenizeAux] at h
    obtain ⟨hs, hb⟩ := text_mem_flushBuf h
    rw [hs]; exact hb
  | case2 buf rest ih =>
    intro h
    have hunf : tokenizeAux buf ('<' :: rest) =
        flushBuf buf ++ (mkTag rest :: tokenizeAux [] (tagRemainder rest)) := by
      rw [tokenizeAux]
      simp
    rw [hunf] at h
    rcases List.mem_append.mp h with h | h
    · obtain ⟨hs, hb⟩ := text_mem_flushBuf h
      rw [hs]; exact hb
    · rcases List.mem_cons.mp h with h | h
      · exact absurd h.symm (mkTag_ne_text rest s)
      · exact ih h
  | case3 buf c rest hne ih =>
    intro h
    rw [tokenizeAux] at h
    simp only [if_neg hne] at h
    exact ih h

/-- Claim C4: the tokenizer never emits a `Text` token with an empty
payload (lines 87 and 128 flush only when `buffer_pos > 0`), and for the
input `"<a><b></b></a>"` — adjacent tags with nothing between them — the
token sequence contains no `Text` token at all. -/
theorem claim_C4 :
    (∀ html s, Token.text s ∈ tokenize html → s ≠ []) ∧
    tokenize ['<','a','>','<','b','>','<','/','b','>','<','/','a','>'] =
      [Token.startTag ['a'], Token.startTag ['b'],
       Token.endTag ['b'], Token.endTag ['a']] := by
  constructor
  · intro html s h
    exact text_mem_tokenizeAux [] html h
  · simp +decide [tokenize, tokenizeAux, tagRemainder, tagBody, tagIsEnd, tagName, mkTag,
      flushBuf, List.dropWhile, List.takeWhile]

theorem claim_C4_witness : (['x'] : List Char) ≠ [] := by
  have hmem : Token.text ['x'] ∈ tokenize ['x','<','a','>'] := by
    have hv : tokenize ['x','<','a','>'] = [Token.text ['x'], Token.startTag ['a']] := by
      simp +decide [tokenize, tokenizeAux, tagRemainder, tagBody, tagIsEnd, tagName, mkTag,
        flushBuf, List.dropWhile, List.takeWhile]
    rw [hv]
    simp
  exact claim_C4.1 ['x','<','a','>'] ['x'] hmem

theorem length_add_child (a : List NodeRec) (i c : Nat) :
    (add_child a i c).length = a.length := by
  induction a generalizing i with
  | nil => rfl
  | cons r rest ih =>
    cases i with
    | zero => simp [add_child]
    | succ i => simp [add_child, ih]

theorem get?_add_child (a : List NodeRec) (i c j : Nat) :
    (add_child a i c).get? j =
      if j = i then (a.get? j).map (fun r => { r with children := r.children ++ [c] })
      else a.get? j := by
  induction a generalizing i j with
  | nil =>
    simp only [add_child]
    split <;> simp
  | cons r rest ih =>
    cases i with
    | zero =>
      cases j with
      | zero => simp [add_child]
      | succ j => simp [add_child]
    | succ i =>
      cases j with
      | zero => simp [add_child]
      | succ j =>
        simp only [add_child, List.get?_cons_succ, ih, Nat.succ_ne_zero]
        by_cases hji : j = i
        · simp [hji]
        · simp [hji, fun h => hji (Nat.succ_injective h)]

theorem get?_lt_length {a : List NodeRec} {j : Nat} {r : NodeRec}
    (h : a.get? j = some r) : j < a.length := by
  by_contra hle
  rw [List.get?_eq_none.mpr (Nat.le_of_not_lt hle)] at h
  exact Option.noConfusion h

theorem buildStep_inv {st st' : BuildState} {t : Token} (hinv : ArenaInv st)
    (hstep : buildStep st t = some st') : ArenaInv st' := by
  obtain ⟨hinv1, hinv2⟩ := hinv
  cases t with
  | endTag d =>
    unfold buildStep at hstep
    injection hstep with hstep
    rw [← hstep]
    refine ⟨hinv1, ?_⟩
    intro i hi
    exact hinv2 i (List.mem_of_mem_tail hi)
  | startTag name =>
    unfold buildStep create_node at hstep
    cases hs : st.2 with
    | nil => rw [hs] at hstep; exact Option.noConfusion hstep
    | cons top rest =>
      rw [hs] at hstep
      simp only [Option.some.injEq] at hstep
      rw [← hstep]
      obtain ⟨rt, hgt, hrt⟩ := hinv2 top (hs ▸ List.mem_cons_self top rest)
      have htop : top < st.1.length := get?_lt_length hgt
      have hA2top : (st.1 ++ [(⟨name, false, []⟩ : NodeRec)]).get? top = some rt := by
        rw [List.get?_append htop]; exact hgt
      have hA2n : (st.1 ++ [(⟨name, false, []⟩ : NodeRec)]).get? st.1.length =
          some ⟨name, false, []⟩ := List.get?_concat_length _ _
      constructor
      · intro j r hj ht
        rw [get?_add_child] at hj
        by_cases hjt : j = top
        · rw [if_pos hjt, hjt, hA2top] at hj
          simp only [Option.map_some'] at hj
          injection hj with hj
          rw [← hj] at ht
          simp only at ht
          rw [hrt] at ht
          exact absurd ht (by simp)
        · rw [if_neg hjt] at hj
          rcases Nat.lt_trichotomy j st.1.length with hlt | heq | hgt2
          · rw [List.get?_append hlt] at hj
            exact hinv1 j r hj ht
          · rw [heq, hA2n] at hj
            injection hj with hj
            rw [← hj] at ht
            exact absurd ht (by simp)
          · rw [List.get?_eq_none.mpr (by simp; omega)] at hj
            exact Option.noConfusion hj
      · intro i hi
        simp only [List.mem_cons] at hi
        rcases hi with hi | hi | hi
        · refine ⟨⟨name, false, []⟩, ?_, rfl⟩
          rw [hi, get?_add_child, if_neg (by omega), hA2n]
        · refine ⟨{ rt with children := rt.children ++ [st.1.length] }, ?_, hrt⟩
          rw [hi, get?_add_child, if_pos rfl, hA2top]
          rfl
        · obtain ⟨ri, hgi, hti⟩ := hinv2 i (hs ▸ List.mem_cons_of_mem top hi)
          have hilt : i < st.1.length := get?_lt_length hgi
          have hA2i : (st.1 ++ [(⟨name, false, []⟩ : NodeRec)]).get? i = some ri := by
            rw [List.get?_append hilt]; exact hgi
          by_cases hit : i = top
          · refine ⟨{ rt with children := rt.children ++ [st.1.length] }, ?_, hrt⟩
            rw [get?_add_child, if_pos hit, hit, hA2top]
            rfl
          · refine ⟨ri, ?_, hti⟩
            rw [get?_add_child, if_neg hit]
            exact hA2i
  | text s =>
    unfold buildStep create_node at hstep
    cases hs : st.2 with
    | nil => rw [hs] at hstep; exact Option.noConfusion hstep
    | cons top rest =>
      rw [hs] at hstep
      simp only [Option.some.injEq] at hstep
      rw [← hstep]
      obtain ⟨rt, hgt, hrt⟩ := hinv2 top (hs ▸ List.mem_cons_self top rest)
      have htop : top < st.1.length := get?_lt_length hgt
      have hA2top : (st.1 ++ [(⟨s, true, []⟩ : NodeRec)]).get? top = some rt := by
        rw [List.get?_append htop]; exact hgt
      have hA2n : (st.1 ++ [(⟨s, true, []⟩ : NodeRec)]).get? st.1.length =
          some ⟨s, true, []⟩ := List.get?_concat_length _ _
      constructor
      · intro j r hj ht
        rw [get?_add_child] at hj
        by_cases hjt : j = top
        · rw [if_pos hjt, hjt, hA2top] at hj
          simp only [Option.map_some'] at hj
          injection hj with hj
          rw [← hj] at ht
          simp only at ht
          rw [hrt] at ht
          exact absurd ht (by simp)
        · rw [if_neg hjt] at hj
          rcases Nat.lt_trichotomy j st.1.length with hlt | heq | hgt2
          · rw [List.get?_append hlt] at hj
            exact hinv1 j r hj ht
          · rw [heq, hA2n] at hj
            injection hj with hj
            rw [← hj]
          · rw [List.get?_eq_none.mpr (by simp; omega)] at hj
            exact Option.noConfusion hj
      · intro i hi
        simp only [List.mem_cons] at hi
        rcases hi with hi | hi
        · refine ⟨{ rt with children := rt.children ++ [st.1.length] }, ?_, hrt⟩
          rw [hi, get?_add_child, if_pos rfl, hA2top]
          rfl
        · obtain ⟨ri, hgi, hti⟩ := hinv2 i (hs ▸ List.mem_cons_of_mem top hi)
          have hilt : i < st.1.length := get?_lt_length hgi
          by_cases hit : i = top
          · refine ⟨{ rt with children := rt.children ++ [st.1.length] }, ?_, hrt⟩
            rw [get?_add_child, if_pos hit, hit, hA2top]
            rfl
          · refine ⟨ri, ?_, hti⟩
            rw [get?_add_child, if_neg hit, List.get?_append hilt]
            exact hgi

theorem buildFrom_inv :
    ∀ (ts : List Token) {st st' : BuildState},
      buildFrom st ts = some st' → ArenaInv st → ArenaInv st' := by
  intro ts
  induction ts with
  | nil =>
    intro st st' h hinv
    rw [buildFrom_nil] at h
    injection h with h
    rw [← h]; exact hinv
  | cons t ts ih =>
    intro st st' h hinv
    rw [buildFrom_cons] at h
    cases hstep : buildStep st t with
    | none => rw [hstep] at h; exact Option.noConfusion h
    | some s =>
      rw [hstep] at h
      simp only [Option.some_bind] at h
      exact ih h (buildStep_inv hinv hstep)

theorem initState_inv : ArenaInv initState := by
  constructor
  · intro j r hj ht
    cases j with
    | zero =>
      simp only [initState, List.get?_cons_zero, Option.some.injEq] at hj
      rw [← hj] at ht
      exact absurd ht (by simp)
    | succ j =>
      simp [initState] at hj
  · intro i hi
    simp only [initState, List.mem_singleton] at hi
    rw [hi]
    exact ⟨⟨documentName, false, []⟩, rfl, rfl⟩

theorem allTextChildlessList_map {f : Nat → Node} {ns : List Nat}
    (h : ∀ n ∈ ns, allTextChildless (f n) = true) :
    allTextChildlessList (ns.map f) = true := by
  induction ns with
  | nil => rw [List.map_nil, allTextChildlessList]
  | cons n ns ih =>
    rw [List.map_cons, allTextChildlessList, Bool.and_eq_true]
    exact ⟨h n (List.mem_cons_self n ns), ih fun m hm => h m (List.mem_cons_of_mem n hm)⟩

theorem allTextChildless_extract {arena : List NodeRec}
    (h : ∀ j r, arena.get? j = some r → r.is_text = true → r.children = []) :
    ∀ fuel i, allTextChildless (extract arena fuel i) = true := by
  intro fuel
  induction fuel with
  | zero =>
    intro i
    rw [extract, allTextChildless, allTextChildlessList]
    simp
  | succ fuel ih =>
    intro i
    rw [extract]
    cases hget : arena.get? i with
    | none =>
      rw [allTextChildless, allTextChildlessList]
      simp
    | some r =>
      rw [allTextChildless, Bool.and_eq_true]
      constructor
      · cases hrt : r.is_text with
        | false => simp
        | true =>
          rw [h i r hget hrt]
          simp
      · exact allTextChildlessList_map fun n _ => ih n

/-- Claim C6: in every tree returned by `build_dom`, every text node has
an empty children sequence — text nodes are appended as children but
never pushed onto the open-element stack (lines 154–157), so no token
can ever attach a child to one. -/
theorem claim_C6 (ts : List Token) (tree : Node) (h : build_dom ts = some tree) :
    allTextChildless tree = true := by
  unfold build_dom at h
  cases hb : buildState ts with
  | none => rw [hb] at h; exact Option.noConfusion h
  | some st =>
    rw [hb] at h
    simp only [Option.map_some', Option.some.injEq] at h
    have hinv : ArenaInv st := buildFrom_inv ts hb initState_inv
    rw [← h]
    exact allTextChildless_extract hinv.1 st.1.length 0

theorem claim_C6_witness :
    allTextChildless (Node.mk documentName false [Node.mk ['x'] true []]) = true :=
  claim_C6 [Token.text ['x']] (Node.mk documentName false [Node.mk ['x'] true []]) rfl

theorem tokenizeAux_lt (buf rest : List Char) :
    tokenizeAux buf ('<' :: rest) =
      flushBuf buf ++ (mkTag rest :: tokenizeAux [] (tagRemainder rest)) := by
  rw [tokenizeAux]
  simp

theorem tokenizeAux_cons_ne (buf : List Char) (c : Char) (rest : List Char) (h : c ≠ '<') :
    tokenizeAux buf (c :: rest) = tokenizeAux (buf ++ [c]) rest := by
  rw [tokenizeAux]
  simp [h]

theorem flushBuf_length_le (buf : List Char) : (flushBuf buf).length ≤ 1 := by
  unfold flushBuf
  split <;> simp

theorem tokenizeAux_length_le :
    ∀ buf l, (tokenizeAux buf l).length ≤ (flushBuf buf).length + l.length := by
  intro buf l
  induction buf, l using tokenizeAux.induct with
  | case1 buf =>
    rw [tokenizeAux]
    simp
  | case2 buf rest ih =>
    rw [tokenizeAux_lt]
    have h1 := length_tagRemainder_le rest
    have h2 : (flushBuf ([] : List Char)).length = 0 := by simp [flushBuf]
    rw [h2] at ih
    simp only [List.length_append, List.length_cons]
    omega
  | case3 buf c rest hne ih =>
    rw [tokenizeAux_cons_ne buf c rest hne]
    have h3 : (flushBuf (buf ++ [c])).length ≤ 1 := flushBuf_length_le _
    simp only [List.length_cons]
    omega

theorem buildStep_arena_le {st st' : BuildState} {t : Token}
    (h : buildStep st t = some st') : st'.1.length ≤ st.1.length + 1 := by
  cases t with
  | startTag name =>
    unfold buildStep create_node at h
    cases hs : st.2 with
    | nil => rw [hs] at h; exact Option.noConfusion h
    | cons top rest =>
      rw [hs] at h
      simp only [Option.some.injEq] at h
      rw [← h]
      simp [length_add_child]
  | endTag d =>
    unfold buildStep at h
    injection h with h
    rw [← h]
    simp
  | text s =>
    unfold buildStep create_node at h
    cases hs : st.2 with
    | nil => rw [hs] at h; exact Option.noConfusion h
    | cons top rest =>
      rw [hs] at h
      simp only [Option.some.injEq] at h
      rw [← h]
      simp [length_add_child]

theorem buildFrom_arena_le :
    ∀ (ts : List Token) {st st' : BuildState},
      buildFrom st ts = some st' → st'.1.length ≤ st.1.length + ts.length := by
  intro ts
  induction ts with
  | nil =>
    intro st st' h
    rw [buildFrom_nil] at h
    injection h with h
    rw [← h]
    simp
  | cons t ts ih =>
    intro st st' h
    rw [buildFrom_cons] at h
    cases hstep : buildStep st t with
    | none => rw [hstep] at h; exact Option.noConfusion h
    | some s =>
      rw [hstep] at h
      simp only [Option.some_bind] at h
      have h1 := ih h
      have h2 := buildStep_arena_le hstep
      simp only [List.length_cons]
      omega

/-- Claim C7 (the countable content of the linearity claim): for every
input of length `n` the tokenizer emits at most `n` tokens, and for
every token sequence of length `m` the builder allocates at most `m`
nodes besides the synthetic root (the arena after the loop holds at most
`m + 1` records).  The `O(n)`/`O(m)` time part is reflected in the
definitions being single passes — see the advance bound of C8. -/
theorem claim_C7 :
    (∀ html : List Char, (tokenize html).length ≤ html.length) ∧
    (∀ (ts : List Token) (st : BuildState), buildState ts = some st →
      st.1.length ≤ ts.length + 1) := by
  constructor
  · intro html
    have h := tokenizeAux_length_le [] html
    simpa [flushBuf] using h
  · intro ts st h
    have h2 := buildFrom_arena_le ts h
    have h3 : initState.1.length = 1 := rfl
    omega

theorem claim_C7_witness :
    ([⟨documentName, false, [1]⟩, ⟨['a'], false, []⟩] : List NodeRec).length ≤
      [Token.startTag ['a']].length + 1 :=
  claim_C7.2 [Token.startTag ['a']]
    ([⟨documentName, false, [1]⟩, ⟨['a'], false, []⟩], [1, 0]) (by decide)

theorem hasGt_cons_false {c : Char} {r : List Char} (h : hasGt (c :: r) = false) :
    c ≠ '>' ∧ hasGt r = false := by
  rw [hasGt, Bool.or_eq_false_iff] at h
  refine ⟨?_, h.2⟩
  intro hc
  rw [hc] at h
  simp at h

theorem hasGt_tail_false {l : List Char} (h : hasGt l = false) : hasGt l.tail = false := by
  cases l with
  | nil => exact h
  | cons c r => exact (hasGt_cons_false h).2

theorem no_gt_mem {m : List Char} (h : hasGt m = false) : ∀ x ∈ m, ¬x = '>' := by
  induction m with
  | nil => simp
  | cons c r ih =>
    obtain ⟨h1, h2⟩ := hasGt_cons_false h
    intro x hx
    rcases List.mem_cons.mp hx with hx | hx
    · rw [hx]; exact h1
    · exact ih h2 x hx

theorem dropWhile_no_gt {m : List Char} (h : hasGt m = false) :
    m.dropWhile (fun c => c ≠ '>') = [] := by
  simp
  exact no_gt_mem h

theorem takeWhile_no_gt {m : List Char} (h : hasGt m = false) :
    m.takeWhile (fun c => c ≠ '>') = m := by
  simp
  exact no_gt_mem h

theorem tagRemainder_no_gt {rest : List Char} (h : hasGt rest = false) :
    tagRemainder rest = [] := by
  unfold tagRemainder tagBody
  split
  · rw [dropWhile_no_gt (hasGt_tail_false h)]
    rfl
  · rw [dropWhile_no_gt h]
    rfl

theorem buildFrom_single_pass (st : BuildState) (ts : List Token) (t : Token) :
    buildFrom st (ts ++ [t]) = (buildFrom st ts).bind (fun s => buildStep s t) := by
  rw [buildFrom_append]
  cases buildFrom st ts with
  | none => rfl
  | some s =>
    simp only [Option.some_bind]
    rw [buildFrom_cons]
    cases buildStep s t with
    | none => rfl
    | some s2 => rfl

/-- Claim C8 (termination rendered structurally): the tokenizer's scan
strictly advances at every loop iteration — after one iteration on a
non-empty remaining input `c :: rest`, the remaining input
(`tagRemainder rest` when `c = '<'`, `rest` otherwise, exactly the
arguments of `tokenizeAux`'s recursive calls) is strictly shorter; when
the input ends inside a tag (no `>` after the `<`), the remainder is
empty, i.e. the position moves past end of input; and the tree builder
is a single pass, consuming exactly one `buildStep` per token. -/
theorem claim_C8 :
    (∀ (c : Char) (rest : List Char),
      (if c = '<' then tagRemainder rest else rest).length < (c :: rest).length) ∧
    (∀ rest : List Char, hasGt rest = false → tagRemainder rest = []) ∧
    (∀ (st : BuildState) (ts : List Token) (t : Token),
      buildFrom st (ts ++ [t]) = (buildFrom st ts).bind (fun s => buildStep s t)) := by
  refine ⟨?_, ?_, buildFrom_single_pass⟩
  · intro c rest
    have h1 := length_tagRemainder_le rest
    split <;> simp <;> omega
  · intro rest h
    exact tagRemainder_no_gt h

theorem claim_C8_witness : tagRemainder ['a'] = [] :=
  claim_C8.2.1 ['a'] (by decide)

theorem hasGt_split {l : List Char} (h : hasGt l = true) :
    ∃ x y, l = x ++ '>' :: y ∧ hasGt x = false := by
  induction l with
  | nil => simp [hasGt] at h
  | cons c r ih =>
    by_cases hc : c = '>'
    · exact ⟨[], r, by rw [hc, List.nil_append], rfl⟩
    · rw [hasGt, Bool.or_eq_true] at h
      rcases h with h | h
      · exact absurd (by simpa using h) hc
      · obtain ⟨x, y, hxy, hx⟩ := ih h
        refine ⟨c :: x, y, by rw [hxy, List.cons_append], ?_⟩
        rw [hasGt, Bool.or_eq_false_iff]
        exact ⟨by simpa using hc, hx⟩

theorem dropWhile_gt_split {x : List Char} (hx : hasGt x = false) (m : List Char) :
    ((x ++ '>' :: m).dropWhile (fun c => c ≠ '>')) = '>' :: m := by
  induction x with
  | nil =>
    rw [List.nil_append, List.dropWhile_cons]
    simp
  | cons c r ih =>
    obtain ⟨h1, h2⟩ := hasGt_cons_false hx
    rw [List.cons_append, List.dropWhile_cons, if_pos (by simp [h1])]
    exact ih h2

theorem tagRemainder_split {x : List Char} (hx : hasGt x = false) (m : List Char) :
    tagRemainder (x ++ '>' :: m) = m := by
  unfold tagRemainder tagBody tagIsEnd
  cases x with
  | nil =>
    rw [List.nil_append]
    simp [List.dropWhile_cons]
  | cons c x2 =>
    obtain ⟨h1, h2⟩ := hasGt_cons_false hx
    by_cases hc : c = '/'
    · subst hc
      rw [List.cons_append, if_pos (by simp), List.tail_cons,
        dropWhile_gt_split h2, List.tail_cons]
    · rw [List.cons_append, if_neg (by simp [hc]), List.dropWhile_cons,
        if_pos (by simp [h1]), dropWhile_gt_split h2, List.tail_cons]

theorem mkTag_no_gt {rest : List Char} (h : hasGt rest = false) :
    mkTag rest =
      if rest.head? = some '/' then Token.endTag rest.tail else Token.startTag rest := by
  by_cases hh : rest.head? = some '/'
  · simp [mkTag, tagName, tagBody, tagIsEnd, hh]
    exact no_gt_mem (hasGt_tail_false h)
  · simp [mkTag, tagName, tagBody, tagIsEnd, hh]
    exact no_gt_mem h

theorem allTagsClosed_cons_elim {c : Char} {r : List Char}
    (h : allTagsClosed (c :: r) = true) : allTagsClosed r = true := by
  rw [allTagsClosed, Bool.and_eq_true] at h
  exact h.2

theorem allTagsClosed_append_right {x l : List Char}
    (h : allTagsClosed (x ++ l) = true) : allTagsClosed l = true := by
  induction x with
  | nil => exact h
  | cons c r ih => exact ih (allTagsClosed_cons_elim h)

theorem allTagsClosed_lt_elim {r : List Char} (h : allTagsClosed ('<' :: r) = true) :
    hasGt r = true := by
  rw [allTagsClosed, Bool.and_eq_true] at h
  have h1 := h.1
  simpa using h1

theorem tokenizeAux_unterminated :
    ∀ buf l, ∀ a b : List Char, l = a ++ '<' :: b → allTagsClosed a = true →
      hasGt b = false → ∃ ts, tokenizeAux buf l = ts ++ [mkTag b] := by
  intro buf l
  induction buf, l using tokenizeAux.induct with
  | case1 buf =>
    intro a b heq _ _
    exact absurd heq (by simp)
  | case2 buf rest ih =>
    intro a b heq hclosed hb
    cases a with
    | nil =>
      rw [List.nil_append] at heq
      injection heq with h1 h2
      subst h2
      refine ⟨flushBuf buf, ?_⟩
      rw [tokenizeAux_lt, tagRemainder_no_gt hb, tokenizeAux]
      simp [flushBuf]
    | cons a0 a2 =>
      rw [List.cons_append] at heq
      injection heq with h1 h2
      subst h1
      have hga : hasGt a2 = true := allTagsClosed_lt_elim hclosed
      have hac : allTagsClosed a2 = true := allTagsClosed_cons_elim hclosed
      obtain ⟨x, y, hxy, hx⟩ := hasGt_split hga
      have hrem : tagRemainder rest = y ++ '<' :: b := by
        rw [h2, hxy, List.append_assoc, List.cons_append]
        exact tagRemainder_split hx (y ++ '<' :: b)
      have hay : allTagsClosed y = true := by
        have h3 : allTagsClosed ('>' :: y) = true :=
          allTagsClosed_append_right (hxy ▸ hac)
        exact allTagsClosed_cons_elim h3
      obtain ⟨ts2, hts2⟩ := ih y b hrem hay hb
      refine ⟨flushBuf buf ++ mkTag rest :: ts2, ?_⟩
      rw [tokenizeAux_lt, hts2]
      simp
  | case3 buf c rest hne ih =>
    intro a b heq hclosed hb
    cases a with
    | nil =>
      rw [List.nil_append] at heq
      injection heq with h1 h2
      exact absurd h1 hne
    | cons a0 a2 =>
      rw [List.cons_append] at heq
      injection heq with h1 h2
      subst h1
      obtain ⟨ts, hts⟩ := ih a2 b h2 (allTagsClosed_cons_elim hclosed) hb
      refine ⟨ts, ?_⟩
      rw [tokenizeAux_cons_ne buf c rest hne]
      exact hts

/-- Claim C9: if the input decomposes as `a ++ '<' :: b` where every `<`
occurring in `a` is followed by a later `>` within `a` (so this `<` is
the one that opens the unterminated tag) and no `>` occurs in `b`, then
the tokenizer emits as its final token a `StartTag` — or an `EndTag`
when the `<` is immediately followed by `/` — whose payload is all of
`b` (respectively all of `b` after the `/`), and stops. -/
theorem claim_C9 (a b : List Char) (ha : allTagsClosed a = true)
    (hb : hasGt b = false) :
    ∃ ts, tokenize (a ++ '<' :: b) =
      ts ++ [if b.head? = some '/' then Token.endTag b.tail else Token.startTag b] := by
  obtain ⟨ts, hts⟩ := tokenizeAux_unterminated [] (a ++ '<' :: b) a b rfl ha hb
  rw [mkTag_no_gt hb] at hts
  exact ⟨ts, hts⟩

theorem claim_C9_witness :
    ∃ ts, tokenize (['x','<','y','>'] ++ '<' :: ['b']) = ts ++ [Token.startTag ['b']] := by
  have h := claim_C9 ['x','<','y','>'] ['b'] (by decide) (by decide)
  simpa using h

/-- Claim C10: `"<>"` tokenizes to a single `StartTag` with empty
payload, `"</>"` to a single `EndTag` with empty payload, and building
from the `StartTag` case creates an element whose name is the empty
string under the root. -/
theorem claim_C10 :
    tokenize ['<','>'] = [Token.startTag []] ∧
    tokenize ['<','/','>'] = [Token.endTag []] ∧
    build_dom (tokenize ['<','>']) =
      some (Node.mk documentName false [Node.mk [] false []]) := by
  have h1 : tokenize ['<','>'] = [Token.startTag []] := by
    simp +decide [tokenize, tokenizeAux, tagRemainder, tagBody, tagIsEnd, tagName, mkTag,
      flushBuf, List.dropWhile, List.takeWhile]
  have h2 : tokenize ['<','/','>'] = [Token.endTag []] := by
    simp +decide [tokenize, tokenizeAux, tagRemainder, tagBody, tagIsEnd, tagName, mkTag,
      flushBuf, List.dropWhile, List.takeWhile]
  refine ⟨h1, h2, ?_⟩
  rw [h1]
  rfl

end HtmlParser
